import Mathlib

/-!
Verification of the feed-forward neural-network engine (`src/FFNN.py`) of the
FYS-STK4155 project-2 repository, as described by its natural-language
specification.

Conventions of the embedding:
* floating-point numbers are idealized as exact rationals (`ℚ`) for the data
  that flows through the network (every IEEE double is a rational), and the
  special values produced by `log` and arithmetic on them (`inf`, `-inf`,
  `nan`) are modelled explicitly by the `NpVal` type over `ℝ`;
* numpy row-major 2-D arrays are lists of rows (`Mat`); a sample vector is a
  `Vec`;
* python in-place mutation of the network is explicit state passing:
  each method takes the network value and returns the updated one;
* `layers.py` is imported by `FFNN.py` but is not part of the sources given;
  the layer variants are modelled from the specification's §4.1 contract
  (marked `Modelled from the spec:` below).
-/

abbrev Vec := List ℚ

abbrev Mat := List (List ℚ)

/-- Dot product of two rows (zip-truncating, as every use has equal lengths). -/
def dot (a b : Vec) : ℚ := (List.zipWith (· * ·) a b).sum

/-- Transpose of a list-of-rows matrix; column count is read off the first row. -/
def mTranspose (m : Mat) : Mat :=
  (List.range (m.headD []).length).map (fun j => m.map (fun r => r.getD j 0))

/-- Matrix product `a @ b`. -/
def matMul (a b : Mat) : Mat :=
  a.map (fun row => (mTranspose b).map (fun col => dot row col))

/-- Elementwise sum of two matrices. -/
def matAdd (a b : Mat) : Mat := List.zipWith (List.zipWith (· + ·)) a b

/-- Elementwise difference of two matrices. -/
def matSub (a b : Mat) : Mat := List.zipWith (List.zipWith (· - ·)) a b

/-- Scalar multiple of a matrix. -/
def smul (c : ℚ) (m : Mat) : Mat := m.map (fun r => r.map (fun v => c * v))

/-- Elementwise (Hadamard) product of two matrices. -/
def hadamard (a b : Mat) : Mat := List.zipWith (List.zipWith (· * ·)) a b

/-- Column sums, `np.sum(m, axis=0)`, as a 1-row matrix. -/
def colSum (m : Mat) : Mat :=
  match m with
  | [] => [[]]
  | r :: rs => [rs.foldl (List.zipWith (· + ·)) r]

/-- Broadcast subtraction of a scalar from a matrix, `m - y`. -/
def matSubScalar (m : Mat) (y : ℚ) : Mat := m.map (fun r => r.map (fun v => v - y))

/-- Broadcast a scalar to the shape of a matrix. -/
def bcast (y : ℚ) (m : Mat) : Mat := m.map (fun r => r.map (fun _ => y))

/-! ## Extended numeric values

`NpVal` models the result of numpy double arithmetic at the level of detail
the cost computation needs: a finite real, `inf`, `-inf`, or `nan`. -/

inductive NpVal where
  | num : ℝ → NpVal
  | pinf : NpVal
  | ninf : NpVal
  | nan : NpVal

instance : Inhabited NpVal := ⟨NpVal.num 0⟩

/-- IEEE addition on extended values: `nan` absorbs, `inf + -inf = nan`. -/
def npAdd : NpVal → NpVal → NpVal
  | .nan, _ => .nan
  | _, .nan => .nan
  | .pinf, .ninf => .nan
  | .ninf, .pinf => .nan
  | .pinf, _ => .pinf
  | _, .pinf => .pinf
  | .ninf, _ => .ninf
  | _, .ninf => .ninf
  | .num a, .num b => .num (a + b)

/-- IEEE multiplication of a finite rational scalar with an extended value
(`0 * ±inf = nan`). -/
noncomputable def qMulNp (a : ℚ) : NpVal → NpVal
  | .num x => .num ((a : ℝ) * x)
  | .nan => .nan
  | .pinf => if 0 < a then .pinf else if a < 0 then .ninf else .nan
  | .ninf => if 0 < a then .ninf else if a < 0 then .pinf else .nan

/-- Elementwise `np.log` on a rational: `log 0 = -inf`, negatives give `nan`. -/
noncomputable def npLogQ (q : ℚ) : NpVal :=
  if 0 < q then .num (Real.log (q : ℝ)) else if q = 0 then .ninf else .nan

/-- Replace `nan` by `0`, as `np.nansum` does before summing. -/
def denan : NpVal → NpVal
  | .nan => .num 0
  | v => v

/-- Plain `np.sum` over a flat list of extended values. -/
noncomputable def npSum (l : List NpVal) : NpVal := l.foldr npAdd (.num 0)

/-- The `np.nansum` reduction: replace `nan` terms by `0`, then sum. -/
noncomputable def nansum (l : List NpVal) : NpVal := npSum (l.map denan)

/-- The partial order on extended values: `nan` compares false with everything. -/
def npLe : NpVal → NpVal → Prop
  | .nan, _ => False
  | _, .nan => False
  | .ninf, _ => True
  | _, .pinf => True
  | .num a, .num b => a ≤ b
  | .pinf, _ => False
  | .num _, .ninf => False

/-! ## Layers

Modelled from the spec: `layers.py` is imported by `FFNN.py` but is not among
the given sources.  A `Layer` owns `weights` (shape in×out), `bias` (1×out),
the cached `input` and the last `output` (§3); the four variants Linear,
Sigmoid, ReLU and Leaky-ReLU share the contract of §4.1.  The declared
dimensions the constructor was called with are carried as fields `inDim`
and `outDim`. -/

inductive LayerKind where
  | linear : LayerKind
  | sigmoid : LayerKind
  | relu : LayerKind
  | leakyRelu : LayerKind
deriving DecidableEq, Inhabited

structure Layer where
  kind : LayerKind
  inDim : ℕ
  outDim : ℕ
  weights : Mat
  bias : Mat
  input : Mat
  output : Mat
deriving DecidableEq, Inhabited

/-- Modelled from the spec: the exact numeric values of the logistic function
and of the leaky-ReLU negative-slope constant live in the missing `layers.py`;
they are abstracted as parameters since no claim depends on them. -/
structure ActSem where
  sg : ℚ → ℚ
  slope : ℚ

/-- Modelled from the spec: the activation each variant applies after the
affine map (§4.1). -/
def actApply (A : ActSem) : LayerKind → ℚ → ℚ
  | .linear, x => x
  | .sigmoid, x => A.sg x
  | .relu, x => max 0 x
  | .leakyRelu, x => if 0 < x then x else A.slope * x

/-- Modelled from the spec: the derivative factor of each activation,
evaluated at the layer's cached output (§4.1: sigmoid `output*(1-output)`,
ReLU `1` where output>0 else `0`, leaky ReLU `1` where output>0 else the
slope constant; linear has factor `1`). -/
def actDeriv (A : ActSem) : LayerKind → ℚ → ℚ
  | .linear, _ => 1
  | .sigmoid, o => o * (1 - o)
  | .relu, o => if 0 < o then 1 else 0
  | .leakyRelu, o => if 0 < o then 1 else A.slope

/-- Modelled from the spec: `forward(input)` caches the input and overwrites
`output` with the activation of `input @ weights + bias` (§4.1). -/
def Layer.forward (A : ActSem) (l : Layer) (inp : Mat) : Layer :=
  { l with
    input := inp
    output := (matAdd (matMul inp l.weights) l.bias).map
      (fun r => r.map (actApply A l.kind)) }

/-- Modelled from the spec: `backward(error, prev_output_transposed,
learning_rate, lambda_)` computes the weight gradient
`prev_output_transposed @ error`, updates
`weights -= lr * (grad + lambda_ * weights)` and
`bias -= lr * sum(error, axis=0)`, and returns the propagated error
`error @ weights_before_update.T`, where for the nonlinear variants the error
is first multiplied elementwise by the activation derivative at the cached
output so the shapes agree (§4.1). -/
def Layer.backward (A : ActSem) (l : Layer) (error prevT : Mat) (lr lam : ℚ) :
    Layer × Mat :=
  let grad := matMul prevT error
  let dz := hadamard error (l.output.map (fun r => r.map (actDeriv A l.kind)))
  ( { l with
      weights := matSub l.weights (smul lr (matAdd grad (smul lam l.weights)))
      bias := matSub l.bias (smul lr (colSum error)) },
    matMul dz (mTranspose l.weights) )

/-! ## The network -/

structure FFNN where
  n_inputs : ℕ
  n_categories : ℕ
  n_hidden_layers : ℕ
  classification : Bool
  sizes : List ℕ
  layers : List Layer
  lambda_ : ℚ
  epochs : ℕ
  verbose : Bool
  learning_rate : ℚ
  costs : List NpVal

/-- The topology list `sizes = [n_inputs] + hidden_sizes + [n_categories]` of FFNN.__init__. -/
def buildSizes (n_inputs : ℕ) (hidden_sizes : List ℕ) (n_categories : ℕ) : List ℕ :=
  [n_inputs] ++ hidden_sizes ++ [n_categories]

/-- Construction, `FFNN.__init__`: a placeholder `LinearLayer(1, 1)`, then for each
`i in range(len(sizes) - 1)` a layer from the hidden variant when
`i != len(sizes) - 1` and otherwise from the final variant with shape
`(n_categories, n_categories)`, exactly as the source writes it.  The layer
constructors of `layers.py` are abstracted as `mk` (they draw random initial
weights; modelled from the spec). -/
def FFNN.init (mk : LayerKind → ℕ → ℕ → Layer) (n_inputs : ℕ)
    (hidden_sizes : List ℕ) (n_categories : ℕ)
    (hidden_layers final_layer : LayerKind) (classification : Bool)
    (epochs : ℕ) (learning_rate lambda_ : ℚ) (verbose : Bool) : FFNN :=
  let sizes := buildSizes n_inputs hidden_sizes n_categories
  { n_inputs := n_inputs
    n_categories := n_categories
    n_hidden_layers := hidden_sizes.length
    classification := classification
    sizes := sizes
    lambda_ := lambda_
    epochs := epochs
    verbose := verbose
    learning_rate := learning_rate
    costs := []
    layers := mk .linear 1 1 ::
      (List.range (sizes.length - 1)).map (fun i =>
        if i ≠ sizes.length - 1 then
          mk hidden_layers (sizes.getD i 0) (sizes.getD (i + 1) 0)
        else
          mk final_layer n_categories n_categories) }

/-- One elementwise term of the classification cost:
`y * np.log(y_hat) + (1 - y) * np.log(1 - y_hat)` at the pair `(p, t)` with
`p` from `y_hat` and `t` from `y`. -/
noncomputable def clsElt (p t : ℚ) : NpVal :=
  npAdd (qMulNp t (npLogQ p)) (qMulNp (1 - t) (npLogQ (1 - p)))

/-- One elementwise term of the regression cost: `(y - y_hat) ** 2`. -/
noncomputable def sqElt (p t : ℚ) : NpVal := NpVal.num (((t - p : ℚ) : ℝ) ^ 2)

/-- Source `FFNN.cost` (src/FFNN.py:158-178): with `m = len(y_hat)` (the row count),
classification gives `-1/m * np.nansum(y * np.log(y_hat) + (1-y) * np.log(1-y_hat))`
and regression gives `1/m * np.nansum((y - y_hat) ** 2)`, elementwise over the
two equally shaped arrays. -/
noncomputable def FFNN.cost (cls : Bool) (y_hat y : Mat) : NpVal :=
  let m : ℚ := (y_hat.length : ℚ)
  if cls then
    qMulNp (-1 / m) (nansum (List.flatten (List.zipWith (List.zipWith clsElt) y_hat y)))
  else
    qMulNp (1 / m) (nansum (List.flatten (List.zipWith (List.zipWith sqElt) y_hat y)))

/-- The spec's words for `cost` (§4.2 of the design): classification is the
mean negative log-likelihood `-(1/m) * Σ [y·log(y_hat) + (1-y)·log(1-y_hat)]`
and regression the mean squared error `(1/m) Σ (y-y_hat)²`, both with NaN-safe
summation (terms that evaluate to NaN are treated as 0). -/
noncomputable def costSpec (cls : Bool) (y_hat y : Mat) : NpVal :=
  let m : ℚ := (y_hat.length : ℚ)
  if cls then
    qMulNp (-(1 / m)) (nansum (List.flatten (List.zipWith (List.zipWith
      (fun p t => npAdd (qMulNp t (npLogQ p)) (qMulNp (1 - t) (npLogQ (1 - p)))))
      y_hat y)))
  else
    qMulNp (1 / m) (nansum (List.flatten (List.zipWith (List.zipWith
      (fun p t => NpVal.num (((t - p : ℚ) : ℝ) ^ 2))) y_hat y)))

/-- Source `FFNN.cost_with_regularization` (src/FFNN.py:180-203):
`cost(y_hat, y) + lambda_ / (2*m) * np.nansum(np.square(self.layers[1].weights))`. -/
noncomputable def FFNN.cost_with_regularization (net : FFNN) (y_hat y : Mat)
    (lam : ℚ) : NpVal :=
  let m : ℚ := (y_hat.length : ℚ)
  npAdd (FFNN.cost net.classification y_hat y)
    (qMulNp (lam / (2 * m))
      (nansum ((net.layers.getD 1 default).weights.flatten.map
        (fun (w : ℚ) => NpVal.num ((w : ℝ) ^ 2)))))

/-! ## Forward pass -/

/-- One step of the forward loop: `self.layers[i + 1].forward(self.layers[i].output)`. -/
def fwdStep (A : ActSem) (ls : List Layer) (i : ℕ) : List Layer :=
  ls.set (i + 1) (Layer.forward A (ls.getD (i + 1) default) (ls.getD i default).output)

/-- Source `FFNN.forward` (src/FFNN.py:66-82): store `x.reshape(1, -1)` as layer 0's
output, then for `i in range(self.n_hidden_layers + 1)` run layer `i+1`'s
forward on layer `i`'s output.  The updated network is returned; the python
return value `self.layers[-1].output` is `FFNN.returnValue` below. -/
def FFNN.forward (A : ActSem) (net : FFNN) (x : Vec) : FFNN :=
  let ls0 := net.layers.set 0 { net.layers.getD 0 default with output := [x] }
  { net with layers := (List.range (net.n_hidden_layers + 1)).foldl (fwdStep A) ls0 }

/-- The value `forward` returns, `self.layers[-1].output`. -/
def FFNN.returnValue (net : FFNN) : Mat := (net.layers.getLastD default).output

/-! ## Backward pass -/

/-- The descending index list `range(L, 0, -1)`, that is `[L, L-1, ..., 1]`. -/
def descList : ℕ → List ℕ
  | 0 => []
  | k + 1 => (k + 1) :: descList k

/-- One step of the backward loop, carrying `(layers, delta)`:
`delta = self.layers[k].backward(delta, self.layers[k-1].output.T, lr, lambda_)`. -/
def bwdStep (A : ActSem) (lr lam : ℚ) (s : List Layer × Mat) (k : ℕ) :
    List Layer × Mat :=
  let r := Layer.backward A (s.1.getD k default) s.2
    (mTranspose (s.1.getD (k - 1) default).output) lr lam
  (s.1.set k r.1, r.2)

/-- The last layer's output `self.layers[L].output` with `L = self.n_hidden_layers + 1`. -/
def FFNN.finalOutput (net : FFNN) : Mat :=
  (net.layers.getD (net.n_hidden_layers + 1) default).output

/-- Source `FFNN.backward` (src/FFNN.py:84-108): `delta = self.layers[L].output - y`,
record one cost entry (plain when `lambda_ == 0`, regularized otherwise, both
computed before any weight update), then loop `k in range(L, 0, -1)` updating
`(layers, delta)`. -/
noncomputable def FFNN.backward (A : ActSem) (net : FFNN) (y : ℚ) (lr : ℚ) : FFNN :=
  let L := net.n_hidden_layers + 1
  let out := (net.layers.getD L default).output
  let delta := matSubScalar out y
  let c := if net.lambda_ = 0 then FFNN.cost net.classification out (bcast y out)
           else FFNN.cost_with_regularization net out (bcast y out) net.lambda_
  let res := (descList L).foldl (bwdStep A lr net.lambda_) (net.layers, delta)
  { net with costs := net.costs ++ [c], layers := res.1 }

/-- The claim's reading of the backward loop: starting from the given delta,
process the layers from the last one down to layer 1 (never layer 0), each
step calling that layer's `backward` with the current delta, the previous
layer's output transposed, the learning rate and `lambda_`, and reassigning
delta to the returned propagated error. -/
def backLoopSpec (A : ActSem) (lr lam : ℚ) : List Layer → Mat → ℕ → List Layer
  | ls, _, 0 => ls
  | ls, delta, k + 1 =>
    let r := Layer.backward A (ls.getD (k + 1) default) delta
      (mTranspose (ls.getD k default).output) lr lam
    backLoopSpec A lr lam (ls.set (k + 1) r.1) r.2 k

/-! ## Training loop -/

/-- The body of `fit`'s double loop (src/FFNN.py:121-128): for each epoch, for
each `(x, y)` in `zip(X, Y)`, `self.forward(x)` then
`self.backward(y, learning_rate=self.learning_rate)`. -/
noncomputable def trainLoop (A : ActSem) (net : FFNN) (X : List Vec) (Y : List ℚ) : FFNN :=
  (if net.verbose then List.range net.epochs else List.range net.epochs).foldl
    (fun nn _ => (X.zip Y).foldl
      (fun nm xy =>
        let nf := FFNN.forward A nm xy.1
        FFNN.backward A nf xy.2 nf.learning_rate) nn)
    net

/-- The per-epoch aggregation of `fit` (src/FFNN.py:130-135):
`np.sum(np.array(costs).reshape((epochs, int(len(costs) / epochs))), axis=1)`.
`int(len / epochs)` is floor division; `reshape` is a fatal error when
`epochs * (len / epochs) != len`, and `int(len / 0)` is a fatal division by
zero — both modelled as `none`. -/
noncomputable def chunkSums (l : List NpVal) (e : ℕ) : Option (List NpVal) :=
  if e = 0 then none
  else if e * (l.length / e) = l.length then
    some ((List.range e).map (fun i =>
      npSum ((l.drop (i * (l.length / e))).take (l.length / e))))
  else none

/-- Source `FFNN.fit` (src/FFNN.py:110-135): reset the cost log, run the double loop,
then aggregate the cost log per epoch. -/
noncomputable def FFNN.fit (A : ActSem) (net : FFNN) (X : List Vec) (Y : List ℚ) :
    Option FFNN :=
  let n1 := trainLoop A { net with costs := [] } X Y
  (chunkSums n1.costs n1.epochs).map (fun cs => { n1 with costs := cs })

/-! ## Prediction -/

/-- The classification threshold of `predict`: `> 0.5`, strictly. -/
def classify (v : ℚ) : Bool := decide ((1 : ℚ) / 2 < v)

/-- The list of per-sample forward outputs collected by `predict`, threading
the mutated network through the successive `self.forward(x)` calls. -/
def collectOutputs (A : ActSem) (net : FFNN) : List Vec → List Mat
  | [] => []
  | x :: xs =>
    let n2 := FFNN.forward A net x
    FFNN.returnValue n2 :: collectOutputs A n2 xs

/-- Source `FFNN.predict` (src/FFNN.py:137-156): run `forward` on each sample and
collect the outputs; classification returns `np.array(Y_pred).squeeze() > 0.5`
(booleans), regression returns `np.array(Y_pred).squeeze()`.  The squeeze of
each sample's `1 × n` output block is its flattening. -/
def FFNN.predict (A : ActSem) (net : FFNN) (X : List Vec) :
    List (List Bool) ⊕ List Vec :=
  let outs := collectOutputs A net X
  if net.classification then
    Sum.inl (outs.map (fun m => m.flatten.map classify))
  else
    Sum.inr (outs.map List.flatten)

/-! ## Proof-support definitions -/

/-- An extended value that is `-inf` or a nonpositive finite real. -/
def NegOk (v : NpVal) : Prop := v = .ninf ∨ ∃ r : ℝ, r ≤ 0 ∧ v = .num r

/-- An extended value that is a nonnegative finite real. -/
def NonnegNum (v : NpVal) : Prop := ∃ r : ℝ, 0 ≤ r ∧ v = .num r

/-- The plain real sum of the squares of a matrix's entries. -/
def sumSq (m : Mat) : ℝ := (m.flatten.map (fun (w : ℚ) => ((w : ℝ) ^ 2))).sum

/-- Overwrite layer 0's `weights` and `bias`, leaving everything else alone. -/
def setL0WB (net : FFNN) (w b : Mat) : FFNN :=
  let l0 := { net.layers.getD 0 default with weights := w, bias := b }
  { net with layers := net.layers.set 0 l0 }

/-- A concrete layer constructor used to evaluate the construction code on
explicit inputs. -/
def mk0 (k : LayerKind) (a b : ℕ) : Layer :=
  { kind := k, inDim := a, outDim := b, weights := [], bias := [], input := [], output := [] }

/-- A concrete activation semantics used by the witnesses. -/
def act0 : ActSem := { sg := fun x => x, slope := 1 / 100 }

/-- A concrete single linear layer used by the witnesses. -/
def layerA : Layer :=
  { kind := .linear, inDim := 1, outDim := 1, weights := [[1]], bias := [[0]],
    input := [], output := [[1]] }

/-- A concrete network used by the witnesses: one placeholder plus one layer. -/
def netA : FFNN :=
  { n_inputs := 1, n_categories := 1, n_hidden_layers := 0, classification := false,
    sizes := [1, 1], layers := [mk0 .linear 1 1, layerA], lambda_ := 0, epochs := 1,
    verbose := false, learning_rate := 1, costs := [] }

/-- A second concrete network, agreeing with `netA` on the first hidden layer's
weights but differing elsewhere. -/
def netB : FFNN := { netA with epochs := 2, lambda_ := 1 }

/-- C1 evaluation: constructing the network of the failing input. -/
def c1Net : FFNN :=
  FFNN.init mk0 2 [3] 1 .sigmoid .linear false 1 (1 / 1000) 0 false

/-- C1: the claim says the layer for the last consecutive pair in `sizes` is
built from the final variant with weight shape `n_categories × n_categories`.
Evaluating `FFNN.__init__` at `n_inputs = 2`, `hidden_sizes = [3]`,
`n_categories = 1`, hidden variant sigmoid, final variant linear shows the
guard `i != len(sizes) - 1` holds for every `i in range(len(sizes) - 1)`, so
the final-variant branch is dead: the last layer is built from the hidden
variant (sigmoid) with constructor arguments `(3, 1)`, not from the final
variant (linear) with arguments `(1, 1)`. -/
theorem c1_final_layer_branch_dead :
    c1Net.layers = [mk0 .linear 1 1, mk0 .sigmoid 2 3, mk0 .sigmoid 3 1] ∧
    (c1Net.layers.getD 2 default).kind = .sigmoid ∧
    ¬ (c1Net.layers.getD 2 default).kind = .linear ∧
    (c1Net.layers.getD 2 default).inDim = 3 ∧
    (c1Net.layers.getD 2 default).outDim = 1 ∧
    ¬ ((c1Net.layers.getD 2 default).inDim = 1 ∧
       (c1Net.layers.getD 2 default).outDim = 1) := by
  refine ⟨?_, ?_, ?_, ?_, ?_, ?_⟩ <;> decide

/-! ## Lemmas about the extended-value algebra -/

theorem qMulNp_num (a : ℚ) (x : ℝ) : qMulNp a (.num x) = .num ((a : ℝ) * x) := rfl

theorem qMulNp_nan (a : ℚ) : qMulNp a .nan = .nan := rfl

theorem qMulNp_zero_ninf : qMulNp 0 .ninf = .nan := by simp [qMulNp]

theorem qMulNp_one_ninf : qMulNp 1 .ninf = .ninf := by norm_num [qMulNp]

theorem npLogQ_pos {q : ℚ} (h : 0 < q) : npLogQ q = .num (Real.log (q : ℝ)) := by
  simp [npLogQ, h]

theorem npLogQ_zero : npLogQ 0 = .ninf := by simp [npLogQ]

theorem npLogQ_neg {q : ℚ} (h : q < 0) : npLogQ q = .nan := by
  simp [npLogQ, not_lt.mpr h.le, h.ne]

theorem npAdd_num_num (a b : ℝ) : npAdd (.num a) (.num b) = .num (a + b) := rfl

theorem npAdd_nan_left (v : NpVal) : npAdd .nan v = .nan := by cases v <;> rfl

theorem npAdd_nan_right (v : NpVal) : npAdd v .nan = .nan := by cases v <;> rfl

theorem nansum_nil : nansum [] = .num 0 := rfl

theorem nansum_cons (v : NpVal) (l : List NpVal) :
    nansum (v :: l) = npAdd (denan v) (nansum l) := rfl

theorem nansum_map_num (l : List ℝ) : nansum (l.map NpVal.num) = .num l.sum := by
  induction l with
  | nil => rfl
  | cons x xs ih =>
      rw [List.map_cons, nansum_cons, ih, List.sum_cons]
      rfl

theorem negOk_npAdd {a b : NpVal} (ha : NegOk a) (hb : NegOk b) : NegOk (npAdd a b) := by
  rcases ha with ha | ⟨r, hr, ha⟩ <;> rcases hb with hb | ⟨s, hs, hb⟩ <;> subst_vars
  · exact Or.inl rfl
  · exact Or.inl rfl
  · exact Or.inl rfl
  · exact Or.inr ⟨r + s, by linarith, rfl⟩

theorem denan_negOk {v : NpVal} (h : v = .nan ∨ NegOk v) : NegOk (denan v) := by
  rcases h with h | h
  · subst h; exact Or.inr ⟨0, le_refl 0, rfl⟩
  · rcases h with h | ⟨r, hr, h⟩ <;> subst h
    · exact Or.inl rfl
    · exact Or.inr ⟨r, hr, rfl⟩

theorem nansum_negOk {l : List NpVal} (h : ∀ v ∈ l, v = .nan ∨ NegOk v) :
    NegOk (nansum l) := by
  induction l with
  | nil => exact Or.inr ⟨0, le_refl 0, rfl⟩
  | cons v vs ih =>
      rw [nansum_cons]
      exact negOk_npAdd (denan_negOk (h v (List.mem_cons_self v vs)))
        (ih fun w hw => h w (List.mem_cons_of_mem v hw))

theorem nansum_all_nan {l : List NpVal} (h : ∀ v ∈ l, v = .nan) :
    nansum l = .num 0 := by
  induction l with
  | nil => rfl
  | cons v vs ih =>
      rw [nansum_cons, h v (List.mem_cons_self v vs),
        ih fun w hw => h w (List.mem_cons_of_mem v hw)]
      simp [denan, npAdd]

theorem qMulNp_neg_ninf {a : ℚ} (h : a < 0) : qMulNp a .ninf = .pinf := by
  simp [qMulNp, not_lt.mpr h.le, h]

theorem qMulNp_neg_num (a : ℚ) (x : ℝ) (h : a < 0) (hx : x ≤ 0) :
    0 ≤ (a : ℝ) * x := by
  have ha : (a : ℝ) ≤ 0 := by exact_mod_cast h.le
  nlinarith [mul_nonneg (neg_nonneg.2 ha) (neg_nonneg.2 hx)]

theorem clsElt_diag_nan (t : ℚ) (ht : t = 0 ∨ t = 1) : clsElt t t = .nan := by
  rcases ht with ht | ht <;> subst ht
  · rw [clsElt, npLogQ_zero, qMulNp_zero_ninf, npAdd_nan_left]
  · rw [clsElt, npLogQ_pos one_pos]
    norm_num [npLogQ_zero, qMulNp_zero_ninf, qMulNp_num, npAdd_nan_right]

theorem clsElt_negOk (p t : ℚ) (ht : t = 0 ∨ t = 1) :
    clsElt p t = .nan ∨ NegOk (clsElt p t) := by
  rcases ht with ht | ht <;> subst ht
  · -- t = 0
    rcases lt_trichotomy p 0 with hp | hp | hp
    · left
      rw [clsElt, npLogQ_neg hp, qMulNp_nan, npAdd_nan_left]
    · left
      subst hp
      rw [clsElt, npLogQ_zero, qMulNp_zero_ninf, npAdd_nan_left]
    · rcases lt_trichotomy p 1 with hp1 | hp1 | hp1
      · right
        refine Or.inr ⟨((0 : ℚ) : ℝ) * Real.log (p : ℝ) +
          (((1 : ℚ) - 0 : ℚ) : ℝ) * Real.log (((1 : ℚ) - p : ℚ) : ℝ), ?_, ?_⟩
        · have hl : Real.log (((1 : ℚ) - p : ℚ) : ℝ) ≤ 0 :=
            Real.log_nonpos (by exact_mod_cast (by linarith : (0 : ℚ) ≤ 1 - p))
              (by exact_mod_cast (by linarith : (1 : ℚ) - p ≤ 1))
          push_cast at hl ⊢
          nlinarith [hl]
        · rw [clsElt, npLogQ_pos hp, npLogQ_pos (by linarith : (0 : ℚ) < 1 - p),
            qMulNp_num, qMulNp_num, npAdd_num_num]
      · right
        subst hp1
        refine Or.inl ?_
        rw [clsElt, npLogQ_pos one_pos]
        norm_num [npLogQ_zero, qMulNp_num, qMulNp_one_ninf]
        rfl
      · left
        rw [clsElt, npLogQ_pos (by linarith : (0 : ℚ) < p),
          npLogQ_neg (by linarith : (1 : ℚ) - p < 0), qMulNp_num, qMulNp_nan,
          npAdd_nan_right]
  · -- t = 1
    rcases lt_trichotomy p 0 with hp | hp | hp
    · left
      rw [clsElt, npLogQ_neg hp, qMulNp_nan, npAdd_nan_left]
    · right
      subst hp
      refine Or.inl ?_
      rw [clsElt, npLogQ_zero]
      norm_num [npLogQ_pos one_pos, qMulNp_one_ninf, qMulNp_num]
      rfl
    · rcases lt_trichotomy p 1 with hp1 | hp1 | hp1
      · right
        refine Or.inr ⟨((1 : ℚ) : ℝ) * Real.log (p : ℝ) +
          (((1 : ℚ) - 1 : ℚ) : ℝ) * Real.log (((1 : ℚ) - p : ℚ) : ℝ), ?_, ?_⟩
        · have hl : Real.log ((p : ℚ) : ℝ) ≤ 0 :=
            Real.log_nonpos (by exact_mod_cast hp.le)
              (by exact_mod_cast hp1.le)
          push_cast at hl ⊢
          nlinarith [hl]
        · rw [clsElt, npLogQ_pos hp, npLogQ_pos (by linarith : (0 : ℚ) < 1 - p),
            qMulNp_num, qMulNp_num, npAdd_num_num]
      · left
        subst hp1
        rw [clsElt, npLogQ_pos one_pos]
        norm_num [npLogQ_zero, qMulNp_zero_ninf, qMulNp_num, npAdd_nan_right]
      · left
        rw [clsElt, npLogQ_pos (by linarith : (0 : ℚ) < p),
          npLogQ_neg (by linarith : (1 : ℚ) - p < 0), qMulNp_num, qMulNp_nan,
          npAdd_nan_right]

theorem mem_zipWith_destruct {α β γ : Type} (f : α → β → γ) :
    ∀ (a : List α) (b : List β) (v : γ), v ∈ List.zipWith f a b →
      ∃ x, x ∈ a ∧ ∃ y, y ∈ b ∧ v = f x y := by
  intro a
  induction a with
  | nil => intro b v hv; simp at hv
  | cons x xs ih =>
      intro b v hv
      cases b with
      | nil => simp at hv
      | cons y ys =>
          rw [List.zipWith_cons_cons] at hv
          rcases List.mem_cons.mp hv with hv | hv
          · exact ⟨x, List.mem_cons_self x xs, y, List.mem_cons_self y ys, hv⟩
          · obtain ⟨x2, hx2, y2, hy2, hv2⟩ := ih ys v hv
            exact ⟨x2, List.mem_cons_of_mem x hx2, y2, List.mem_cons_of_mem y hy2, hv2⟩

theorem mem_flatten_zip {γ : Type} (f : ℚ → ℚ → γ) (Y T : Mat) (v : γ)
    (hv : v ∈ (List.zipWith (List.zipWith f) Y T).flatten) :
    ∃ p t, (∃ r, r ∈ T ∧ t ∈ r) ∧ v = f p t := by
  obtain ⟨row, hrow, hvrow⟩ := List.mem_flatten.mp hv
  obtain ⟨r, _, s, hs, rfl⟩ := mem_zipWith_destruct (List.zipWith f) Y T row hrow
  obtain ⟨p, _, t, ht, rfl⟩ := mem_zipWith_destruct f r s v hvrow
  exact ⟨p, t, ⟨s, hs, ht⟩, rfl⟩

theorem zipWith_num_row (g : ℚ → ℚ → ℝ) (r s : List ℚ) :
    List.zipWith (fun p t => NpVal.num (g p t)) r s
      = (List.zipWith g r s).map NpVal.num := by
  induction r generalizing s with
  | nil => simp
  | cons x xs ih => cases s <;> simp [ih]

theorem zipWith_num_mat (g : ℚ → ℚ → ℝ) (Y T : Mat) :
    (List.zipWith (List.zipWith (fun p t => NpVal.num (g p t))) Y T).flatten
      = ((List.zipWith (List.zipWith g) Y T).flatten).map NpVal.num := by
  induction Y generalizing T with
  | nil => simp
  | cons r rs ih =>
      cases T with
      | nil => simp
      | cons s ss => simp [zipWith_num_row, ih]

theorem cost_false_eq (y_hat y : Mat) :
    FFNN.cost false y_hat y
      = .num ((((1 : ℚ) / (y_hat.length : ℚ) : ℚ) : ℝ) *
          ((List.zipWith (List.zipWith (fun p t => (((t - p : ℚ) : ℝ)) ^ 2))
            y_hat y).flatten.sum)) := by
  have hsq : List.zipWith (List.zipWith sqElt) y_hat y
      = List.zipWith (List.zipWith
          (fun p t => NpVal.num (((t - p : ℚ) : ℝ) ^ 2))) y_hat y := rfl
  rw [FFNN.cost, hsq]
  rw [zipWith_num_mat, nansum_map_num, qMulNp_num, if_neg Bool.false_ne_true]

theorem cost_true_cases (y_hat y : Mat) (hm : 1 ≤ y_hat.length)
    (hy : ∀ r ∈ y, ∀ t ∈ r, t = 0 ∨ t = 1) :
    NonnegNum (FFNN.cost true y_hat y) ∨ FFNN.cost true y_hat y = .pinf := by
  have hneg : ((-1 : ℚ)) / (y_hat.length : ℚ) < 0 := by
    apply div_neg_of_neg_of_pos (by norm_num)
    exact_mod_cast hm
  have hS : NegOk (nansum ((List.zipWith (List.zipWith clsElt) y_hat y).flatten)) := by
    apply nansum_negOk
    intro v hv
    obtain ⟨p, t, ⟨r, hr, ht⟩, rfl⟩ := mem_flatten_zip clsElt y_hat y v hv
    exact clsElt_negOk p t (hy r hr t ht)
  rw [FFNN.cost]
  rcases hS with hS | ⟨r, hr, hS⟩
  · right
    rw [hS]
    simp only
    rw [qMulNp_neg_ninf hneg, if_pos trivial]
  · left
    rw [hS]
    simp only
    rw [qMulNp_num, if_pos trivial]
    exact ⟨_, qMulNp_neg_num _ r hneg hr, rfl⟩

theorem cost_true_diag_zero (y_hat y : Mat) (hy : ∀ r ∈ y, ∀ t ∈ r, t = 0 ∨ t = 1)
    (heq : y_hat = y) : FFNN.cost true y_hat y = .num 0 := by
  subst heq
  have hall : ∀ v ∈ (List.zipWith (List.zipWith clsElt) y_hat y_hat).flatten,
      v = NpVal.nan := by
    intro v hv
    rw [List.zipWith_same] at hv
    obtain ⟨row, hrow, hvrow⟩ := List.mem_flatten.mp hv
    obtain ⟨r, hr, rfl⟩ := List.mem_map.mp hrow
    rw [List.zipWith_same] at hvrow
    obtain ⟨t, ht, rfl⟩ := List.mem_map.mp hvrow
    exact clsElt_diag_nan t (hy r hr t ht)
  rw [FFNN.cost]
  simp only
  rw [nansum_all_nan hall, qMulNp_num, mul_zero, if_pos trivial]

theorem npAdd_pinf_num (x : ℝ) : npAdd .pinf (.num x) = .pinf := rfl

theorem map_num_comp (g : ℚ → ℝ) (l : List ℚ) :
    l.map (fun w => NpVal.num (g w)) = (l.map g).map NpVal.num := by
  induction l <;> simp_all

theorem sumSq_nonneg (m : Mat) : 0 ≤ sumSq m := by
  apply List.sum_nonneg
  intro v hv
  obtain ⟨w, _, rfl⟩ := List.mem_map.mp hv
  positivity

/-- Evaluation of `cost_with_regularization`: the L2 term is the finite real
`lambda_ / (2 m)` times the sum of the squares of `layers[1]`'s weights. -/
theorem costWithReg_eq (net : FFNN) (y_hat y : Mat) (lam : ℚ) :
    FFNN.cost_with_regularization net y_hat y lam
      = npAdd (FFNN.cost net.classification y_hat y)
          (.num ((((lam / (2 * (y_hat.length : ℚ))) : ℚ) : ℝ) *
            sumSq (net.layers.getD 1 default).weights)) := by
  rw [FFNN.cost_with_regularization]
  congr 1
  rw [map_num_comp, nansum_map_num, qMulNp_num, sumSq]

theorem sq_row_nonneg (r s : List ℚ) :
    0 ≤ (List.zipWith (fun p t => (((t - p : ℚ) : ℝ)) ^ 2) r s).sum := by
  apply List.sum_nonneg
  intro v hv
  obtain ⟨p, _, t, _, rfl⟩ := mem_zipWith_destruct _ r s v hv
  positivity

theorem sq_flat_nonneg (Y T : Mat) :
    0 ≤ ((List.zipWith (List.zipWith (fun p t => (((t - p : ℚ) : ℝ)) ^ 2))
      Y T).flatten.sum) := by
  apply List.sum_nonneg
  intro v hv
  obtain ⟨p, t, _, rfl⟩ := mem_flatten_zip _ Y T v hv
  positivity

theorem sq_row_zero_iff (r s : List ℚ) (h : r.length = s.length) :
    ((List.zipWith (fun p t => (((t - p : ℚ) : ℝ)) ^ 2) r s).sum = 0) ↔ r = s := by
  induction r generalizing s with
  | nil =>
      cases s
      · simp
      · simp at h
  | cons x xs ih =>
      cases s with
      | nil => simp at h
      | cons z zs =>
          rw [List.zipWith_cons_cons, List.sum_cons]
          have hlen : xs.length = zs.length := by simpa using h
          have hnn := sq_row_nonneg xs zs
          constructor
          · intro h0
            have h1 : (((z - x : ℚ) : ℝ)) ^ 2 = 0 := by
              nlinarith [sq_nonneg (((z - x : ℚ) : ℝ))]
            have h2 : (List.zipWith (fun p t => (((t - p : ℚ) : ℝ)) ^ 2) xs zs).sum = 0 := by
              nlinarith [sq_nonneg (((z - x : ℚ) : ℝ))]
            have hzx : z = x := by
              have hr0 : (((z - x : ℚ) : ℝ)) = 0 := by
                exact pow_eq_zero_iff (n := 2) (by norm_num) |>.mp h1
              have hq0 : (z - x : ℚ) = 0 := by exact_mod_cast hr0
              linarith
            rw [List.cons.injEq]
            exact ⟨hzx.symm, (ih zs hlen).mp h2⟩
          · intro heq
            injection heq with ha hb
            subst ha
            subst hb
            simp [(ih xs rfl).mpr rfl]

theorem sq_mat_zero_iff (Y T : Mat)
    (h : List.Forall₂ (fun r s => r.length = s.length) Y T) :
    (((List.zipWith (List.zipWith (fun p t => (((t - p : ℚ) : ℝ)) ^ 2))
      Y T).flatten.sum = 0) ↔ Y = T) := by
  induction h with
  | nil => simp
  | @cons r s rs ss hl hrest ih =>
      rw [List.zipWith_cons_cons, List.flatten_cons, List.sum_append]
      have h1 := sq_row_nonneg r s
      have h2 := sq_flat_nonneg rs ss
      constructor
      · intro h0
        have e1 : (List.zipWith (fun p t => (((t - p : ℚ) : ℝ)) ^ 2) r s).sum = 0 := by
          linarith
        have e2 : ((List.zipWith (List.zipWith (fun p t => (((t - p : ℚ) : ℝ)) ^ 2))
            rs ss).flatten.sum) = 0 := by linarith
        rw [List.cons.injEq]
        exact ⟨(sq_row_zero_iff r s hl).mp e1, ih.mp e2⟩
      · intro heq
        injection heq with ha hb
        rw [(sq_row_zero_iff r s hl).mpr ha, ih.mpr hb, add_zero]

/-- C4: for every `y_hat` and `y`, `cost(y_hat, y)` equals the mean negative
log-likelihood `-(1/m)·Σ[y·log(y_hat) + (1-y)·log(1-y_hat)]` when
classification is true and the mean squared error `(1/m)·Σ(y-y_hat)²`
otherwise, with `m` the number of rows of `y_hat` and NaN-safe summation,
exactly as the spec-side `costSpec` states it. -/
theorem c4_cost_matches_spec (cls : Bool) (y_hat y : Mat) :
    FFNN.cost cls y_hat y = costSpec cls y_hat y := by
  cases cls
  · rfl
  · rw [FFNN.cost, costSpec]
    simp only [if_pos trivial]
    rw [neg_div]
    rfl

/-- C5: `cost_with_regularization(y_hat, y, lambda_)` equals
`cost(y_hat, y) + lambda_/(2m) · Σ weights₁²` where `weights₁` is the first
hidden layer's weight matrix (`layers[1]`), and the result depends on no other
layer's weights: any network with the same `layers[1]` weights and the same
classification flag gets the same regularized cost. -/
theorem c5_regularization_first_hidden_only (net : FFNN) (y_hat y : Mat) (lam : ℚ) :
    (FFNN.cost_with_regularization net y_hat y lam
      = npAdd (FFNN.cost net.classification y_hat y)
          (.num ((((lam / (2 * (y_hat.length : ℚ))) : ℚ) : ℝ) *
            sumSq (net.layers.getD 1 default).weights)))
    ∧ (∀ net2 : FFNN,
        (net2.layers.getD 1 default).weights = (net.layers.getD 1 default).weights →
        net2.classification = net.classification →
        FFNN.cost_with_regularization net2 y_hat y lam
          = FFNN.cost_with_regularization net y_hat y lam) := by
  refine ⟨costWithReg_eq net y_hat y lam, ?_⟩
  intro net2 h1 h2
  rw [FFNN.cost_with_regularization, FFNN.cost_with_regularization, h1, h2]

theorem c5_witness :
    ((netB.layers.getD 1 default).weights = (netA.layers.getD 1 default).weights
      ∧ netB.classification = netA.classification)
    ∧ FFNN.cost_with_regularization netB [[1]] [[1]] 1
        = FFNN.cost_with_regularization netA [[1]] [[1]] 1 :=
  ⟨⟨rfl, rfl⟩, (c5_regularization_first_hidden_only netA [[1]] [[1]] 1).2 netB rfl rfl⟩

/-- C8: `cost` is non-negative: the regression (MSE) cost is `≥ 0` and is `0`
exactly when `y_hat = y`; the classification (negative log-likelihood) cost is
`≥ 0` (possibly `+inf`) for {0,1}-valued targets, and is `0` when `y_hat = y`
with `y` degenerate at {0,1}. -/
theorem c8_cost_nonneg (y_hat y : Mat) (hm : 1 ≤ y_hat.length)
    (hsh : List.Forall₂ (fun r s => r.length = s.length) y_hat y) :
    npLe (.num 0) (FFNN.cost false y_hat y)
    ∧ (FFNN.cost false y_hat y = .num 0 ↔ y_hat = y)
    ∧ ((∀ r ∈ y, ∀ t ∈ r, t = 0 ∨ t = 1) → npLe (.num 0) (FFNN.cost true y_hat y))
    ∧ ((∀ r ∈ y, ∀ t ∈ r, t = 0 ∨ t = 1) → y_hat = y →
        FFNN.cost true y_hat y = .num 0) := by
  have hm' : (0 : ℚ) < (y_hat.length : ℚ) := by exact_mod_cast hm
  have hpos : (0 : ℚ) < 1 / (y_hat.length : ℚ) := by positivity
  refine ⟨?_, ?_, ?_, ?_⟩
  · rw [cost_false_eq]
    show (0 : ℝ) ≤ _
    have h1 : (0 : ℝ) ≤ (((1 : ℚ) / (y_hat.length : ℚ) : ℚ) : ℝ) := by
      exact_mod_cast hpos.le
    exact mul_nonneg h1 (sq_flat_nonneg y_hat y)
  · rw [cost_false_eq]
    constructor
    · intro h0
      have h0' : (((1 : ℚ) / (y_hat.length : ℚ) : ℚ) : ℝ) *
          ((List.zipWith (List.zipWith (fun p t => (((t - p : ℚ) : ℝ)) ^ 2))
            y_hat y).flatten.sum) = 0 := by
        injection h0
      have hne : (((1 : ℚ) / (y_hat.length : ℚ) : ℚ) : ℝ) ≠ 0 := by
        exact_mod_cast hpos.ne.symm
      rcases mul_eq_zero.mp h0' with h | h
      · exact absurd h hne
      · exact (sq_mat_zero_iff _ _ hsh).mp h
    · intro heq
      rw [(sq_mat_zero_iff _ _ hsh).mpr heq, mul_zero]
  · intro hy
    rcases cost_true_cases y_hat y hm hy with ⟨r, hr0, hc⟩ | hc
    · rw [hc]
      exact hr0
    · rw [hc]
      trivial
  · intro hy heq
    exact cost_true_diag_zero y_hat y hy heq

theorem c8_witness :
    (1 ≤ ([[1]] : Mat).length
      ∧ List.Forall₂ (fun (r s : List ℚ) => r.length = s.length) [[1]] [[1]])
    ∧ npLe (.num 0) (FFNN.cost false [[1]] [[1]])
    ∧ FFNN.cost true [[1]] [[1]] = .num 0 := by
  have h := c8_cost_nonneg [[1]] [[1]] (by decide)
    (by constructor <;> simp)
  exact ⟨⟨by decide, by constructor <;> simp⟩, h.1,
    h.2.2.2 (by intro r hr t ht; simp at hr; subst hr; simp at ht; right; exact ht) rfl⟩

/-- C6: whenever `lambda_ > 0` (and the first hidden layer's weights are
nonzero), the regularized cost is at least the unregularized cost, for
{0,1}-valued targets when the network is a classifier. -/
theorem c6_reg_cost_ge (net : FFNN) (y_hat y : Mat) (lam : ℚ)
    (hlam : 0 < lam) (hm : 1 ≤ y_hat.length)
    (hy : net.classification = true → ∀ r ∈ y, ∀ t ∈ r, t = 0 ∨ t = 1)
    (_hw : ∃ r ∈ (net.layers.getD 1 default).weights, ∃ v ∈ r, v ≠ 0) :
    npLe (FFNN.cost net.classification y_hat y)
      (FFNN.cost_with_regularization net y_hat y lam) := by
  have hm' : (0 : ℚ) < (y_hat.length : ℚ) := by exact_mod_cast hm
  have hT : 0 ≤ (((lam / (2 * (y_hat.length : ℚ))) : ℚ) : ℝ) *
      sumSq (net.layers.getD 1 default).weights := by
    have h1 : (0 : ℚ) ≤ lam / (2 * (y_hat.length : ℚ)) := by positivity
    exact mul_nonneg (by exact_mod_cast h1) (sumSq_nonneg _)
  rw [costWithReg_eq]
  cases hcls : net.classification
  · rw [cost_false_eq, npAdd_num_num]
    show _ ≤ _
    linarith [hT]
  · rcases cost_true_cases y_hat y hm (hy hcls) with ⟨r, hr0, hc⟩ | hc
    · rw [hc, npAdd_num_num]
      show r ≤ r + _
      linarith [hT]
    · rw [hc, npAdd_pinf_num]
      trivial

theorem c6_witness :
    ((0 : ℚ) < 1 ∧ 1 ≤ ([[1]] : Mat).length
      ∧ (∃ r ∈ (netA.layers.getD 1 default).weights, ∃ v ∈ r, v ≠ 0))
    ∧ npLe (FFNN.cost netA.classification [[1]] [[1]])
        (FFNN.cost_with_regularization netA [[1]] [[1]] 1) := by
  refine ⟨⟨by norm_num, by decide, ⟨[1], by simp [netA, layerA], 1, by simp, by norm_num⟩⟩, ?_⟩
  exact c6_reg_cost_ge netA [[1]] [[1]] 1 (by norm_num) (by decide)
    (by intro h; exact absurd h (by decide))
    ⟨[1], by simp [netA, layerA], 1, by simp, by norm_num⟩

/-! ## Backward pass: the loop from the last layer down to layer 1 -/

theorem zero_not_mem_descList : ∀ k : ℕ, 0 ∉ descList k := by
  intro k
  induction k with
  | zero => simp [descList]
  | succ k ih =>
      rw [descList]
      intro h
      rcases List.mem_cons.mp h with h | h
      · exact Nat.succ_ne_zero k h.symm
      · exact ih h

theorem descFold_eq_backLoop (A : ActSem) (lr lam : ℚ) :
    ∀ (k : ℕ) (ls : List Layer) (delta : Mat),
      ((descList k).foldl (bwdStep A lr lam) (ls, delta)).1
        = backLoopSpec A lr lam ls delta k := by
  intro k
  induction k with
  | zero => intro ls delta; rfl
  | succ k ih =>
      intro ls delta
      rw [descList, List.foldl_cons, backLoopSpec]
      exact ih _ _

/-- C2: `backward(y, learning_rate)` sets the initial delta to the last
layer's output minus `y`, appends exactly one cost entry (the plain cost when
`lambda_ = 0`, the regularized one otherwise), and then walks the layers from
the last (`n_hidden_layers + 1`) down to layer 1 — never layer 0 — calling
each layer's `backward` with the current delta, the previous layer's output
transposed, the learning rate and `lambda_`, reassigning delta to the returned
propagated error (the claim-side loop `backLoopSpec`). -/
theorem c2_backward_orchestration (A : ActSem) (net : FFNN) (y lr : ℚ) :
    FFNN.backward A net y lr =
      { net with
        costs := net.costs ++
          [if net.lambda_ = 0 then
             FFNN.cost net.classification (FFNN.finalOutput net)
               (bcast y (FFNN.finalOutput net))
           else
             FFNN.cost_with_regularization net (FFNN.finalOutput net)
               (bcast y (FFNN.finalOutput net)) net.lambda_]
        layers := backLoopSpec A lr net.lambda_ net.layers
          (matSubScalar (FFNN.finalOutput net) y) (net.n_hidden_layers + 1) }
    ∧ (FFNN.backward A net y lr).costs.length = net.costs.length + 1
    ∧ 0 ∉ descList (net.n_hidden_layers + 1) := by
  refine ⟨?_, ?_, zero_not_mem_descList _⟩
  · rw [FFNN.backward]
    congr 1
    exact descFold_eq_backLoop A lr net.lambda_ _ net.layers _
  · rw [FFNN.backward]
    simp

/-! ## Training-loop bookkeeping -/

theorem backward_costs_length (A : ActSem) (net : FFNN) (y lr : ℚ) :
    (FFNN.backward A net y lr).costs.length = net.costs.length + 1 := by
  rw [FFNN.backward]
  simp

theorem sample_foldl_facts (A : ActSem) :
    ∀ (ps : List (Vec × ℚ)) (nm : FFNN),
      ((ps.foldl (fun nm2 xy =>
          let nf := FFNN.forward A nm2 xy.1
          FFNN.backward A nf xy.2 nf.learning_rate) nm).costs.length
        = nm.costs.length + ps.length)
      ∧ ((ps.foldl (fun nm2 xy =>
          let nf := FFNN.forward A nm2 xy.1
          FFNN.backward A nf xy.2 nf.learning_rate) nm).epochs = nm.epochs) := by
  intro ps
  induction ps with
  | nil => intro nm; exact ⟨by simp, rfl⟩
  | cons p ps ih =>
      intro nm
      rw [List.foldl_cons]
      obtain ⟨h1, h2⟩ := ih (FFNN.backward A (FFNN.forward A nm p.1) p.2
        (FFNN.forward A nm p.1).learning_rate)
      constructor
      · rw [h1, backward_costs_length]
        have hf : (FFNN.forward A nm p.1).costs = nm.costs := rfl
        rw [hf, List.length_cons]
        omega
      · rw [h2]
        rfl

theorem epoch_foldl_facts (A : ActSem) (X : List Vec) (Y : List ℚ) :
    ∀ (l : List ℕ) (nm : FFNN),
      ((l.foldl (fun nn _ => (X.zip Y).foldl (fun nm2 xy =>
          let nf := FFNN.forward A nm2 xy.1
          FFNN.backward A nf xy.2 nf.learning_rate) nn) nm).costs.length
        = nm.costs.length + l.length * (X.zip Y).length)
      ∧ ((l.foldl (fun nn _ => (X.zip Y).foldl (fun nm2 xy =>
          let nf := FFNN.forward A nm2 xy.1
          FFNN.backward A nf xy.2 nf.learning_rate) nn) nm).epochs = nm.epochs) := by
  intro l
  induction l with
  | nil => intro nm; exact ⟨by simp, rfl⟩
  | cons e l ih =>
      intro nm
      rw [List.foldl_cons]
      obtain ⟨h1, h2⟩ := ih ((X.zip Y).foldl (fun nm2 xy =>
          let nf := FFNN.forward A nm2 xy.1
          FFNN.backward A nf xy.2 nf.learning_rate) nm)
      obtain ⟨g1, g2⟩ := sample_foldl_facts A (X.zip Y) nm
      constructor
      · rw [h1, g1, List.length_cons]
        ring
      · rw [h2, g2]

theorem trainLoop_eq (A : ActSem) (net : FFNN) (X : List Vec) (Y : List ℚ) :
    trainLoop A net X Y
      = (List.range net.epochs).foldl (fun nn _ => (X.zip Y).foldl (fun nm2 xy =>
          let nf := FFNN.forward A nm2 xy.1
          FFNN.backward A nf xy.2 nf.learning_rate) nn) net := by
  rw [trainLoop, ite_self]

theorem trainLoop_epochs (A : ActSem) (net : FFNN) (X : List Vec) (Y : List ℚ) :
    (trainLoop A net X Y).epochs = net.epochs := by
  rw [trainLoop_eq]
  exact (epoch_foldl_facts A X Y (List.range net.epochs) net).2

theorem trainLoop_costs_length (A : ActSem) (net : FFNN) (X : List Vec) (Y : List ℚ) :
    (trainLoop A net X Y).costs.length
      = net.costs.length + net.epochs * (X.zip Y).length := by
  rw [trainLoop_eq]
  have h := (epoch_foldl_facts A X Y (List.range net.epochs) net).1
  simpa using h

/-- C3: for every epoch count `≥ 1` and nonempty training set, `fit(X, Y)`
resets the cost log (its result does not depend on the incoming log), records
one cost per (sample, target) pair per epoch — `epochs * len(zip(X, Y))`
entries in all — and aggregates them into exactly `epochs` entries, each the
`np.sum` of that epoch's block; a raw log whose length is not an exact
multiple of the epoch count makes the aggregation a fatal error (`none`). -/
theorem c3_fit_cost_log (A : ActSem) (net : FFNN) (X : List Vec) (Y : List ℚ)
    (he : 1 ≤ net.epochs) (hX : X ≠ []) (hY : Y ≠ []) :
    ∃ net2, FFNN.fit A net X Y = some net2
      ∧ net2.costs.length = net.epochs
      ∧ (trainLoop A { net with costs := [] } X Y).costs.length
          = net.epochs * (X.zip Y).length
      ∧ 1 ≤ (X.zip Y).length
      ∧ net2.costs = (List.range net.epochs).map (fun i =>
          npSum ((((trainLoop A { net with costs := [] } X Y).costs).drop
            (i * (X.zip Y).length)).take ((X.zip Y).length)))
      ∧ (∀ c0 : List NpVal, FFNN.fit A { net with costs := c0 } X Y = FFNN.fit A net X Y)
      ∧ (∀ (l : List NpVal) (e : ℕ), 1 ≤ e → ¬ (e ∣ l.length) →
          chunkSums l e = none) := by
  have hps : 1 ≤ (X.zip Y).length := by
    rw [List.length_zip]
    rcases X with _ | ⟨x, xs⟩
    · exact absurd rfl hX
    rcases Y with _ | ⟨y0, ys⟩
    · exact absurd rfl hY
    simp only [List.length_cons]
    omega
  have hlen : (trainLoop A { net with costs := [] } X Y).costs.length
      = net.epochs * (X.zip Y).length := by
    rw [trainLoop_costs_length]
    simp
  have hepo : (trainLoop A { net with costs := [] } X Y).epochs = net.epochs :=
    trainLoop_epochs A _ X Y
  have hpos : 0 < net.epochs := he
  have hdiv : net.epochs * (net.epochs * (X.zip Y).length / net.epochs)
      = net.epochs * (X.zip Y).length := by
    rw [Nat.mul_div_cancel_left _ hpos]
  have hchunk : chunkSums (trainLoop A { net with costs := [] } X Y).costs
      (trainLoop A { net with costs := [] } X Y).epochs
      = some ((List.range net.epochs).map (fun i =>
          npSum ((((trainLoop A { net with costs := [] } X Y).costs).drop
            (i * (X.zip Y).length)).take ((X.zip Y).length)))) := by
    rw [chunkSums, hepo, hlen, if_neg (by omega : ¬ net.epochs = 0), if_pos hdiv,
      Nat.mul_div_cancel_left _ hpos]
  refine ⟨{ trainLoop A { net with costs := [] } X Y with
      costs := (List.range net.epochs).map (fun i =>
        npSum ((((trainLoop A { net with costs := [] } X Y).costs).drop
          (i * (X.zip Y).length)).take ((X.zip Y).length))) },
    ?_, ?_, hlen, hps, rfl, ?_, ?_⟩
  · rw [FFNN.fit, hchunk]
    rfl
  · simp
  · intro c0
    rfl
  · intro l e he1 hnd
    rw [chunkSums, if_neg (by omega : ¬ e = 0), if_neg]
    intro hcon
    exact hnd ⟨l.length / e, hcon.symm⟩

theorem c3_witness :
    (1 ≤ netA.epochs ∧ ([[1]] : List Vec) ≠ [] ∧ ([0] : List ℚ) ≠ [])
    ∧ ∃ net2, FFNN.fit act0 netA [[1]] [0] = some net2
        ∧ net2.costs.length = netA.epochs := by
  refine ⟨⟨by decide, by decide, by decide⟩, ?_⟩
  obtain ⟨net2, h1, h2, _⟩ :=
    c3_fit_cost_log act0 netA [[1]] [0] (by decide) (by decide) (by decide)
  exact ⟨net2, h1, h2⟩

/-! ## Prediction -/

theorem collectOutputs_length (A : ActSem) :
    ∀ (X : List Vec) (net : FFNN), (collectOutputs A net X).length = X.length := by
  intro X
  induction X with
  | nil => intro net; rfl
  | cons x xs ih => intro net; simp [collectOutputs, ih]

/-- C7: on a classification network `predict` returns booleans, each obtained
from the squeezed forward output by the strict threshold `> 0.5` (`classify`),
so a predicted probability of exactly `0.5` is classified `false`; on a
regression network it returns the squeezed raw outputs; in both cases one
entry per input sample. -/
theorem c7_predict_threshold (A : ActSem) (net : FFNN) (X : List Vec) :
    (FFNN.predict A net X
      = (if net.classification then
          Sum.inl ((collectOutputs A net X).map (fun m => m.flatten.map classify))
        else Sum.inr ((collectOutputs A net X).map List.flatten)))
    ∧ (FFNN.predict A net X).elim List.length List.length = X.length
    ∧ (∀ v : ℚ, classify v = true ↔ 1 / 2 < v)
    ∧ classify (1 / 2) = false := by
  refine ⟨rfl, ?_, ?_, by simp [classify]⟩
  · cases hc : net.classification <;>
      simp [FFNN.predict, hc, collectOutputs_length]
  · intro v
    simp [classify]

/-! ## Index bookkeeping for layer 0 -/

theorem getD_set_ne {α : Type} (l : List α) (v d : α) :
    ∀ (i j : ℕ), i ≠ j → (l.set i v).getD j d = l.getD j d := by
  induction l with
  | nil => intro i j _; rfl
  | cons a as ih =>
      intro i j hij
      cases i with
      | zero =>
          cases j with
          | zero => exact absurd rfl hij
          | succ j => rfl
      | succ i =>
          cases j with
          | zero => rfl
          | succ j =>
              simp only [List.set_cons_succ, List.getD_cons_succ]
              exact ih i j (by omega)

theorem getD_set_lt {α : Type} (l : List α) (v d : α) :
    ∀ i, i < l.length → (l.set i v).getD i d = v := by
  induction l with
  | nil => intro i hi; simp at hi
  | cons a as ih =>
      intro i hi
      cases i with
      | zero => rfl
      | succ i =>
          simp only [List.set_cons_succ, List.getD_cons_succ]
          exact ih i (by simpa using hi)

theorem fwdStep_getD_zero (A : ActSem) (ls : List Layer) (i : ℕ) :
    (fwdStep A ls i).getD 0 default = ls.getD 0 default := by
  rw [fwdStep]
  exact getD_set_ne ls _ _ (i + 1) 0 (Nat.succ_ne_zero i)

theorem foldRange_getD_zero (A : ActSem) :
    ∀ (l : List ℕ) (ls : List Layer),
      ((l.foldl (fwdStep A) ls).getD 0 default) = ls.getD 0 default := by
  intro l
  induction l with
  | nil => intro ls; rfl
  | cons i il ih =>
      intro ls
      rw [List.foldl_cons, ih, fwdStep_getD_zero]

theorem bwdFold_getD_zero (A : ActSem) (lr lam : ℚ) :
    ∀ (l : List ℕ), (∀ k ∈ l, k ≠ 0) → ∀ (s : List Layer × Mat),
      (((l.foldl (bwdStep A lr lam) s).1).getD 0 default) = s.1.getD 0 default := by
  intro l
  induction l with
  | nil => intro _ s; rfl
  | cons k kl ih =>
      intro hk s
      rw [List.foldl_cons, ih (fun j hj => hk j (List.mem_cons_of_mem k hj))]
      rw [bwdStep]
      exact getD_set_ne _ _ _ k 0 (hk k (List.mem_cons_self k kl))

theorem foldRange_nil (A : ActSem) : ∀ l : List ℕ, l.foldl (fwdStep A) [] = [] := by
  intro l
  induction l with
  | nil => rfl
  | cons i il ih => rw [List.foldl_cons]; exact ih

theorem fwdStep_set0 (A : ActSem) (ls : List Layer) (v : Layer)
    (hv : v.output = (ls.getD 0 default).output) (i : ℕ) :
    fwdStep A (ls.set 0 v) i = (fwdStep A ls i).set 0 v := by
  cases ls with
  | nil => rfl
  | cons l0 rest =>
      simp only [List.getD_cons_zero] at hv
      rw [fwdStep, fwdStep]
      cases i with
      | zero =>
          simp [List.set_cons_zero, List.set_cons_succ, List.getD_cons_succ,
            List.getD_cons_zero, hv]
      | succ i =>
          simp [List.set_cons_zero, List.set_cons_succ, List.getD_cons_succ]

theorem foldRange_set0 (A : ActSem) :
    ∀ (l : List ℕ) (ls : List Layer) (v : Layer),
      v.output = (ls.getD 0 default).output →
      l.foldl (fwdStep A) (ls.set 0 v) = (l.foldl (fwdStep A) ls).set 0 v := by
  intro l
  induction l with
  | nil => intro ls v _; rfl
  | cons i il ih =>
      intro ls v hv
      rw [List.foldl_cons, List.foldl_cons, fwdStep_set0 A ls v hv i]
      exact ih (fwdStep A ls i) v (by rw [fwdStep_getD_zero]; exact hv)

theorem setL0WB_layers (net : FFNN) (w b : Mat) :
    (setL0WB net w b).layers
      = net.layers.set 0 { net.layers.getD 0 default with weights := w, bias := b } :=
  rfl

theorem forward_setL0WB (A : ActSem) (net : FFNN) (w b : Mat) (x : Vec) :
    FFNN.forward A (setL0WB net w b) x = setL0WB (FFNN.forward A net x) w b := by
  cases hls : net.layers with
  | nil =>
      rw [setL0WB, FFNN.forward, FFNN.forward, setL0WB]
      simp only [hls]
      congr 1
      simp [List.set, foldRange_nil]
  | cons l0 rest =>
      rw [setL0WB, FFNN.forward, FFNN.forward, setL0WB]
      simp only [hls]
      congr 1
      rw [foldRange_getD_zero]
      simp only [List.set_cons_zero, List.getD_cons_zero, List.set_set]
      have h1 : ({ l0 with weights := w, bias := b, output := [x] } : Layer) :: rest
          = (({ l0 with output := [x] } : Layer) :: rest).set 0
              ({ l0 with weights := w, bias := b, output := [x] }) := rfl
      rw [h1, foldRange_set0 A (List.range (net.n_hidden_layers + 1))
        (({ l0 with output := [x] } : Layer) :: rest)
        ({ l0 with weights := w, bias := b, output := [x] }) (by rfl)]

theorem descFold_nil (A : ActSem) (lr lam : ℚ) :
    ∀ (l : List ℕ) (delta : Mat),
      (l.foldl (bwdStep A lr lam) ([], delta)).1 = [] := by
  intro l
  induction l with
  | nil => intro delta; rfl
  | cons k kl ih =>
      intro delta
      rw [List.foldl_cons, bwdStep]
      exact ih _

theorem bwdStep_set0 (A : ActSem) (lr lam : ℚ) (ls : List Layer) (delta : Mat)
    (v : Layer) (hv : v.output = (ls.getD 0 default).output) (k : ℕ) (hk : k ≠ 0) :
    bwdStep A lr lam (ls.set 0 v, delta) k
      = ((bwdStep A lr lam (ls, delta) k).1.set 0 v,
         (bwdStep A lr lam (ls, delta) k).2) := by
  obtain ⟨k2, rfl⟩ : ∃ k2, k = k2 + 1 := ⟨k - 1, by omega⟩
  cases ls with
  | nil => rfl
  | cons l0 rest =>
      simp only [List.getD_cons_zero] at hv
      rw [bwdStep, bwdStep]
      cases k2 with
      | zero =>
          simp [List.set_cons_zero, List.set_cons_succ, List.getD_cons_succ,
            List.getD_cons_zero, hv]
      | succ k3 =>
          simp [List.set_cons_zero, List.set_cons_succ, List.getD_cons_succ]

theorem descFold_set0 (A : ActSem) (lr lam : ℚ) :
    ∀ (l : List ℕ), (∀ k ∈ l, k ≠ 0) → ∀ (ls : List Layer) (delta : Mat) (v : Layer),
      v.output = (ls.getD 0 default).output →
      l.foldl (bwdStep A lr lam) (ls.set 0 v, delta)
        = (((l.foldl (bwdStep A lr lam) (ls, delta)).1).set 0 v,
           (l.foldl (bwdStep A lr lam) (ls, delta)).2) := by
  intro l
  induction l with
  | nil => intro _ ls delta v _; rfl
  | cons k kl ih =>
      intro hk ls delta v hv
      rw [List.foldl_cons, List.foldl_cons,
        bwdStep_set0 A lr lam ls delta v hv k (hk k (List.mem_cons_self k kl))]
      have hnext : v.output
          = (((bwdStep A lr lam (ls, delta) k).1).getD 0 default).output := by
        rw [bwdStep]
        rw [getD_set_ne _ _ _ k 0 (hk k (List.mem_cons_self k kl))]
        exact hv
      exact ih (fun j hj => hk j (List.mem_cons_of_mem k hj))
        (bwdStep A lr lam (ls, delta) k).1 (bwdStep A lr lam (ls, delta) k).2 v hnext

theorem setL0WB_getD_ne (net : FFNN) (w b : Mat) (j : ℕ) (hj : j ≠ 0) :
    (setL0WB net w b).layers.getD j default = net.layers.getD j default := by
  rw [setL0WB_layers]
  exact getD_set_ne _ _ _ 0 j (fun h => hj h.symm)

theorem costWR_setL0WB (net : FFNN) (w b : Mat) (y_hat y : Mat) (lam : ℚ) :
    FFNN.cost_with_regularization (setL0WB net w b) y_hat y lam
      = FFNN.cost_with_regularization net y_hat y lam := by
  rw [FFNN.cost_with_regularization, FFNN.cost_with_regularization,
    setL0WB_getD_ne net w b 1 (by omega)]
  rfl

theorem setL0WB_getD_zero_output (net : FFNN) (w b : Mat) :
    ((setL0WB net w b).layers.getD 0 default).output
      = (net.layers.getD 0 default).output := by
  rw [setL0WB_layers]
  cases hls : net.layers with
  | nil => rfl
  | cons l0 rest => rfl

theorem setL0WB_n_inputs (net : FFNN) (w b : Mat) :
    (setL0WB net w b).n_inputs = net.n_inputs := rfl

theorem setL0WB_n_categories (net : FFNN) (w b : Mat) :
    (setL0WB net w b).n_categories = net.n_categories := rfl

theorem setL0WB_n_hidden (net : FFNN) (w b : Mat) :
    (setL0WB net w b).n_hidden_layers = net.n_hidden_layers := rfl

theorem setL0WB_classification (net : FFNN) (w b : Mat) :
    (setL0WB net w b).classification = net.classification := rfl

theorem setL0WB_sizes (net : FFNN) (w b : Mat) :
    (setL0WB net w b).sizes = net.sizes := rfl

theorem setL0WB_lambda (net : FFNN) (w b : Mat) :
    (setL0WB net w b).lambda_ = net.lambda_ := rfl

theorem setL0WB_epochs (net : FFNN) (w b : Mat) :
    (setL0WB net w b).epochs = net.epochs := rfl

theorem setL0WB_verbose (net : FFNN) (w b : Mat) :
    (setL0WB net w b).verbose = net.verbose := rfl

theorem setL0WB_learning_rate (net : FFNN) (w b : Mat) :
    (setL0WB net w b).learning_rate = net.learning_rate := rfl

theorem setL0WB_costs (net : FFNN) (w b : Mat) :
    (setL0WB net w b).costs = net.costs := rfl

theorem setL0WB_mk_layers (net : FFNN) (L : List Layer) (C : List NpVal) (w b : Mat) :
    setL0WB { net with layers := L, costs := C } w b
      = { net with
          layers := L.set 0 { L.getD 0 default with weights := w, bias := b },
          costs := C } := rfl

theorem backward_setL0WB (A : ActSem) (net : FFNN) (w b : Mat) (y lr : ℚ) :
    FFNN.backward A (setL0WB net w b) y lr
      = setL0WB (FFNN.backward A net y lr) w b := by
  rw [FFNN.backward, FFNN.backward]
  simp only [setL0WB_n_inputs, setL0WB_n_categories, setL0WB_n_hidden,
    setL0WB_classification, setL0WB_sizes, setL0WB_lambda, setL0WB_epochs,
    setL0WB_verbose, setL0WB_learning_rate, setL0WB_costs]
  rw [setL0WB_getD_ne net w b (net.n_hidden_layers + 1) (Nat.succ_ne_zero _)]
  rw [costWR_setL0WB]
  rw [setL0WB_layers]
  rw [descFold_set0 A lr net.lambda_ _
    (fun k hk h0 => zero_not_mem_descList _ (h0 ▸ hk)) net.layers
    (matSubScalar (net.layers.getD (net.n_hidden_layers + 1) default).output y)
    ({ net.layers.getD 0 default with weights := w, bias := b }) rfl]
  rw [setL0WB_mk_layers]
  rw [bwdFold_getD_zero A lr net.lambda_ _
    (fun k hk h0 => zero_not_mem_descList _ (h0 ▸ hk))]

theorem forward_layer0 (A : ActSem) (net : FFNN) (x : Vec) (h : net.layers ≠ []) :
    (FFNN.forward A net x).layers.getD 0 default
      = { net.layers.getD 0 default with output := [x] } := by
  rw [FFNN.forward]
  simp only
  rw [foldRange_getD_zero]
  refine getD_set_lt _ _ _ 0 ?_
  cases hls : net.layers with
  | nil => exact absurd hls h
  | cons l0 rest => simp

theorem forward_layer0_wb (A : ActSem) (net : FFNN) (x : Vec) :
    ((FFNN.forward A net x).layers.getD 0 default).weights
        = (net.layers.getD 0 default).weights
    ∧ ((FFNN.forward A net x).layers.getD 0 default).bias
        = (net.layers.getD 0 default).bias := by
  rw [FFNN.forward]
  simp only
  rw [foldRange_getD_zero]
  cases hls : net.layers with
  | nil => exact ⟨rfl, rfl⟩
  | cons l0 rest => exact ⟨rfl, rfl⟩

theorem backward_layer0 (A : ActSem) (net : FFNN) (y lr : ℚ) :
    (FFNN.backward A net y lr).layers.getD 0 default
      = net.layers.getD 0 default := by
  rw [FFNN.backward]
  simp only
  exact bwdFold_getD_zero A lr net.lambda_ _
    (fun k hk h0 => zero_not_mem_descList _ (h0 ▸ hk)) _

theorem step_setL0WB (A : ActSem) (nm : FFNN) (w b : Mat) (p : Vec × ℚ) :
    FFNN.backward A (FFNN.forward A (setL0WB nm w b) p.1) p.2
        (FFNN.forward A (setL0WB nm w b) p.1).learning_rate
      = setL0WB (FFNN.backward A (FFNN.forward A nm p.1) p.2
          (FFNN.forward A nm p.1).learning_rate) w b := by
  rw [forward_setL0WB]
  have hlr : (setL0WB (FFNN.forward A nm p.1) w b).learning_rate
      = (FFNN.forward A nm p.1).learning_rate := setL0WB_learning_rate _ w b
  rw [hlr, backward_setL0WB]

theorem sampleFold_setL0WB (A : ActSem) (w b : Mat) :
    ∀ (ps : List (Vec × ℚ)) (nm : FFNN),
      ps.foldl (fun nm2 xy =>
          let nf := FFNN.forward A nm2 xy.1
          FFNN.backward A nf xy.2 nf.learning_rate) (setL0WB nm w b)
        = setL0WB (ps.foldl (fun nm2 xy =>
            let nf := FFNN.forward A nm2 xy.1
            FFNN.backward A nf xy.2 nf.learning_rate) nm) w b := by
  intro ps
  induction ps with
  | nil => intro nm; rfl
  | cons p ps ih =>
      intro nm
      simp only [List.foldl_cons]
      rw [step_setL0WB]
      exact ih _

theorem epochFold_setL0WB (A : ActSem) (w b : Mat) (X : List Vec) (Y : List ℚ) :
    ∀ (l : List ℕ) (nm : FFNN),
      l.foldl (fun nn _ => (X.zip Y).foldl (fun nm2 xy =>
          let nf := FFNN.forward A nm2 xy.1
          FFNN.backward A nf xy.2 nf.learning_rate) nn) (setL0WB nm w b)
        = setL0WB (l.foldl (fun nn _ => (X.zip Y).foldl (fun nm2 xy =>
            let nf := FFNN.forward A nm2 xy.1
            FFNN.backward A nf xy.2 nf.learning_rate) nn) nm) w b := by
  intro l
  induction l with
  | nil => intro nm; rfl
  | cons e l ih =>
      intro nm
      simp only [List.foldl_cons]
      rw [sampleFold_setL0WB]
      exact ih _

theorem trainLoop_setL0WB (A : ActSem) (net : FFNN) (X : List Vec) (Y : List ℚ)
    (w b : Mat) :
    trainLoop A (setL0WB net w b) X Y = setL0WB (trainLoop A net X Y) w b := by
  rw [trainLoop_eq, trainLoop_eq, setL0WB_epochs]
  exact epochFold_setL0WB A w b X Y (List.range net.epochs) net

theorem fit_setL0WB (A : ActSem) (net : FFNN) (X : List Vec) (Y : List ℚ)
    (w b : Mat) :
    FFNN.fit A (setL0WB net w b) X Y
      = (FFNN.fit A net X Y).map (fun n => setL0WB n w b) := by
  rw [FFNN.fit, FFNN.fit]
  have h0 : ({ setL0WB net w b with costs := ([] : List NpVal) })
      = setL0WB { net with costs := [] } w b := rfl
  rw [h0, trainLoop_setL0WB, setL0WB_costs, setL0WB_epochs, Option.map_map]
  congr 1

theorem returnValue_setL0WB (net : FFNN) (w b : Mat) :
    FFNN.returnValue (setL0WB net w b) = FFNN.returnValue net := by
  rw [FFNN.returnValue, FFNN.returnValue, setL0WB_layers]
  cases hls : net.layers with
  | nil => rfl
  | cons l0 rest =>
      rw [List.set_cons_zero]
      cases rest with
      | nil => rfl
      | cons r rs => simp [List.getLastD_cons]

theorem collectOutputs_setL0WB (A : ActSem) (w b : Mat) :
    ∀ (X : List Vec) (net : FFNN),
      collectOutputs A (setL0WB net w b) X = collectOutputs A net X := by
  intro X
  induction X with
  | nil => intro net; rfl
  | cons x xs ih =>
      intro net
      simp only [collectOutputs]
      rw [forward_setL0WB, returnValue_setL0WB, ih]

theorem predict_setL0WB (A : ActSem) (net : FFNN) (w b : Mat) (X : List Vec) :
    FFNN.predict A (setL0WB net w b) X = FFNN.predict A net X := by
  rw [FFNN.predict, FFNN.predict, setL0WB_classification, collectOutputs_setL0WB]

theorem step_layer0_wb (A : ActSem) (nm : FFNN) (p : Vec × ℚ) :
    (((FFNN.backward A (FFNN.forward A nm p.1) p.2
        (FFNN.forward A nm p.1).learning_rate).layers.getD 0 default).weights
      = ((nm.layers.getD 0 default)).weights)
    ∧ (((FFNN.backward A (FFNN.forward A nm p.1) p.2
        (FFNN.forward A nm p.1).learning_rate).layers.getD 0 default).bias
      = ((nm.layers.getD 0 default)).bias) := by
  rw [backward_layer0]
  exact forward_layer0_wb A nm p.1

theorem sampleFold_layer0_wb (A : ActSem) :
    ∀ (ps : List (Vec × ℚ)) (nm : FFNN),
      (((ps.foldl (fun nm2 xy =>
          let nf := FFNN.forward A nm2 xy.1
          FFNN.backward A nf xy.2 nf.learning_rate) nm).layers.getD 0 default).weights
        = (nm.layers.getD 0 default).weights)
      ∧ (((ps.foldl (fun nm2 xy =>
          let nf := FFNN.forward A nm2 xy.1
          FFNN.backward A nf xy.2 nf.learning_rate) nm).layers.getD 0 default).bias
        = (nm.layers.getD 0 default).bias) := by
  intro ps
  induction ps with
  | nil => intro nm; exact ⟨rfl, rfl⟩
  | cons p ps ih =>
      intro nm
      simp only [List.foldl_cons]
      obtain ⟨h1, h2⟩ := ih (FFNN.backward A (FFNN.forward A nm p.1) p.2
        (FFNN.forward A nm p.1).learning_rate)
      obtain ⟨g1, g2⟩ := step_layer0_wb A nm p
      exact ⟨h1.trans g1, h2.trans g2⟩

theorem epochFold_layer0_wb (A : ActSem) (X : List Vec) (Y : List ℚ) :
    ∀ (l : List ℕ) (nm : FFNN),
      (((l.foldl (fun nn _ => (X.zip Y).foldl (fun nm2 xy =>
          let nf := FFNN.forward A nm2 xy.1
          FFNN.backward A nf xy.2 nf.learning_rate) nn) nm).layers.getD 0 default).weights
        = (nm.layers.getD 0 default).weights)
      ∧ (((l.foldl (fun nn _ => (X.zip Y).foldl (fun nm2 xy =>
          let nf := FFNN.forward A nm2 xy.1
          FFNN.backward A nf xy.2 nf.learning_rate) nn) nm).layers.getD 0 default).bias
        = (nm.layers.getD 0 default).bias) := by
  intro l
  induction l with
  | nil => intro nm; exact ⟨rfl, rfl⟩
  | cons e l ih =>
      intro nm
      simp only [List.foldl_cons]
      obtain ⟨h1, h2⟩ := ih ((X.zip Y).foldl (fun nm2 xy =>
          let nf := FFNN.forward A nm2 xy.1
          FFNN.backward A nf xy.2 nf.learning_rate) nm)
      obtain ⟨g1, g2⟩ := sampleFold_layer0_wb A (X.zip Y) nm
      exact ⟨h1.trans g1, h2.trans g2⟩

theorem fit_layer0_wb (A : ActSem) (net : FFNN) (X : List Vec) (Y : List ℚ)
    (net2 : FFNN) (h : FFNN.fit A net X Y = some net2) :
    ((net2.layers.getD 0 default).weights = (net.layers.getD 0 default).weights)
    ∧ ((net2.layers.getD 0 default).bias = (net.layers.getD 0 default).bias) := by
  rw [FFNN.fit] at h
  cases hch : chunkSums (trainLoop A { net with costs := [] } X Y).costs
      (trainLoop A { net with costs := [] } X Y).epochs with
  | none => rw [hch] at h; simp at h
  | some cs =>
      rw [hch] at h
      simp only [Option.map_some'] at h
      have h2 := Option.some.inj h
      subst h2
      have g : ((((trainLoop A { net with costs := [] } X Y).layers.getD 0
              default).weights
            = (({ net with costs := ([] : List NpVal) } : FFNN).layers.getD 0
              default).weights)
          ∧ (((trainLoop A { net with costs := [] } X Y).layers.getD 0
              default).bias
            = (({ net with costs := ([] : List NpVal) } : FFNN).layers.getD 0
              default).bias)) := by
        rw [trainLoop_eq]
        exact epochFold_layer0_wb A X Y
          (List.range ({ net with costs := ([] : List NpVal) } : FFNN).epochs)
          { net with costs := [] }
      exact ⟨g.1, g.2⟩

/-- C9: layer 0 is a parameterless placeholder in effect.  `forward` only
overwrites layer 0's output with the input reshaped to one row, leaving its
weights and bias (and every other field) alone; `backward` leaves layer 0
entirely untouched; `fit` never changes layer 0's weights or bias; and none of
`forward`, `backward`, `fit` or `predict` reads layer 0's weights or bias:
overwriting them (`setL0WB`) commutes with each operation and leaves
predictions unchanged. -/
theorem c9_layer0_placeholder (A : ActSem) (net : FFNN) (x : Vec) (y lr : ℚ)
    (w b : Mat) (X : List Vec) (Y : List ℚ) (X2 : List Vec)
    (hne : net.layers ≠ []) :
    ((FFNN.forward A net x).layers.getD 0 default
        = { net.layers.getD 0 default with output := [x] })
    ∧ ((FFNN.backward A net y lr).layers.getD 0 default
        = net.layers.getD 0 default)
    ∧ (∀ net2, FFNN.fit A net X Y = some net2 →
        (net2.layers.getD 0 default).weights = (net.layers.getD 0 default).weights
        ∧ (net2.layers.getD 0 default).bias = (net.layers.getD 0 default).bias)
    ∧ (FFNN.forward A (setL0WB net w b) x = setL0WB (FFNN.forward A net x) w b)
    ∧ (FFNN.backward A (setL0WB net w b) y lr
        = setL0WB (FFNN.backward A net y lr) w b)
    ∧ (FFNN.fit A (setL0WB net w b) X Y
        = (FFNN.fit A net X Y).map (fun n => setL0WB n w b))
    ∧ (FFNN.predict A (setL0WB net w b) X2 = FFNN.predict A net X2) :=
  ⟨forward_layer0 A net x hne, backward_layer0 A net y lr,
    fun net2 h => fit_layer0_wb A net X Y net2 h,
    forward_setL0WB A net w b x, backward_setL0WB A net w b y lr,
    fit_setL0WB A net X Y w b, predict_setL0WB A net w b X2⟩

theorem c9_witness :
    (netA.layers ≠ [])
    ∧ ((FFNN.forward act0 netA [1]).layers.getD 0 default
        = { netA.layers.getD 0 default with output := [[1]] })
    ∧ (FFNN.predict act0 (setL0WB netA [[5]] [[5]]) [[1]]
        = FFNN.predict act0 netA [[1]]) := by
  have h := c9_layer0_placeholder act0 netA [1] 0 1 [[5]] [[5]] [[1]] [0] [[1]]
    (by decide)
  exact ⟨by decide, h.1, h.2.2.2.2.2.2⟩

/-! ## Verbose mode -/

theorem forward_verbose (A : ActSem) (net : FFNN) (x : Vec) (bv : Bool) :
    FFNN.forward A { net with verbose := bv } x
      = { FFNN.forward A net x with verbose := bv } := rfl

theorem backward_verbose (A : ActSem) (net : FFNN) (y lr : ℚ) (bv : Bool) :
    FFNN.backward A { net with verbose := bv } y lr
      = { FFNN.backward A net y lr with verbose := bv } := rfl

theorem step_verbose (A : ActSem) (nm : FFNN) (p : Vec × ℚ) (bv : Bool) :
    FFNN.backward A (FFNN.forward A { nm with verbose := bv } p.1) p.2
        (FFNN.forward A { nm with verbose := bv } p.1).learning_rate
      = { FFNN.backward A (FFNN.forward A nm p.1) p.2
          (FFNN.forward A nm p.1).learning_rate with verbose := bv } := by
  rw [forward_verbose]
  have hlr : ({ FFNN.forward A nm p.1 with verbose := bv } : FFNN).learning_rate
      = (FFNN.forward A nm p.1).learning_rate := rfl
  rw [hlr, backward_verbose]

theorem sampleFold_verbose (A : ActSem) (bv : Bool) :
    ∀ (ps : List (Vec × ℚ)) (nm : FFNN),
      ps.foldl (fun nm2 xy =>
          let nf := FFNN.forward A nm2 xy.1
          FFNN.backward A nf xy.2 nf.learning_rate) { nm with verbose := bv }
        = { ps.foldl (fun nm2 xy =>
            let nf := FFNN.forward A nm2 xy.1
            FFNN.backward A nf xy.2 nf.learning_rate) nm with verbose := bv } := by
  intro ps
  induction ps with
  | nil => intro nm; rfl
  | cons p ps ih =>
      intro nm
      simp only [List.foldl_cons]
      rw [step_verbose]
      exact ih _

theorem epochFold_verbose (A : ActSem) (X : List Vec) (Y : List ℚ) (bv : Bool) :
    ∀ (l : List ℕ) (nm : FFNN),
      l.foldl (fun nn _ => (X.zip Y).foldl (fun nm2 xy =>
          let nf := FFNN.forward A nm2 xy.1
          FFNN.backward A nf xy.2 nf.learning_rate) nn) { nm with verbose := bv }
        = { l.foldl (fun nn _ => (X.zip Y).foldl (fun nm2 xy =>
            let nf := FFNN.forward A nm2 xy.1
            FFNN.backward A nf xy.2 nf.learning_rate) nn) nm with verbose := bv } := by
  intro l
  induction l with
  | nil => intro nm; rfl
  | cons e l ih =>
      intro nm
      simp only [List.foldl_cons]
      rw [sampleFold_verbose]
      exact ih _

theorem trainLoop_verbose (A : ActSem) (net : FFNN) (X : List Vec) (Y : List ℚ)
    (bv : Bool) :
    trainLoop A { net with verbose := bv } X Y
      = { trainLoop A net X Y with verbose := bv } := by
  rw [trainLoop_eq, trainLoop_eq]
  have he : ({ net with verbose := bv } : FFNN).epochs = net.epochs := rfl
  rw [he]
  exact epochFold_verbose A X Y bv (List.range net.epochs) net

theorem fit_verbose (A : ActSem) (net : FFNN) (X : List Vec) (Y : List ℚ)
    (bv : Bool) :
    FFNN.fit A { net with verbose := bv } X Y
      = (FFNN.fit A net X Y).map (fun n => { n with verbose := bv }) := by
  rw [FFNN.fit, FFNN.fit]
  have h0 : ({ ({ net with verbose := bv } : FFNN) with costs := ([] : List NpVal) })
      = ({ ({ net with costs := [] } : FFNN) with verbose := bv } : FFNN) := rfl
  rw [h0, trainLoop_verbose]
  have hc : ({ trainLoop A { net with costs := [] } X Y with verbose := bv } : FFNN).costs
      = (trainLoop A { net with costs := [] } X Y).costs := rfl
  have he2 : ({ trainLoop A { net with costs := [] } X Y with verbose := bv } : FFNN).epochs
      = (trainLoop A { net with costs := [] } X Y).epochs := rfl
  rw [hc, he2, Option.map_map]
  congr 1

theorem collectOutputs_verbose (A : ActSem) (bv : Bool) :
    ∀ (X : List Vec) (net : FFNN),
      collectOutputs A { net with verbose := bv } X = collectOutputs A net X := by
  intro X
  induction X with
  | nil => intro net; rfl
  | cons x xs ih =>
      intro net
      simp only [collectOutputs]
      rw [forward_verbose, ih]
      rfl

theorem predict_verbose (A : ActSem) (net : FFNN) (X : List Vec) (bv : Bool) :
    FFNN.predict A { net with verbose := bv } X = FFNN.predict A net X := by
  rw [FFNN.predict, FFNN.predict]
  have hcl : ({ net with verbose := bv } : FFNN).classification
      = net.classification := rfl
  rw [hcl, collectOutputs_verbose]

/-- C10: training with `verbose = true` and with `verbose = false` produces
the same result up to the `verbose` flag itself: identical layer parameters,
identical cost logs, and identical subsequent predictions — verbose only
wraps the epoch iteration with progress reporting. -/
theorem c10_verbose_no_effect (A : ActSem) (net : FFNN) (X : List Vec)
    (Y : List ℚ) (b1 b2 : Bool) :
    (FFNN.fit A { net with verbose := b1 } X Y
      = (FFNN.fit A { net with verbose := b2 } X Y).map
          (fun n => { n with verbose := b1 }))
    ∧ ((FFNN.fit A { net with verbose := b1 } X Y).map FFNN.costs
      = (FFNN.fit A { net with verbose := b2 } X Y).map FFNN.costs)
    ∧ ((FFNN.fit A { net with verbose := b1 } X Y).map FFNN.layers
      = (FFNN.fit A { net with verbose := b2 } X Y).map FFNN.layers)
    ∧ (∀ X2 : List Vec,
        (FFNN.fit A { net with verbose := b1 } X Y).map
          (fun n => FFNN.predict A n X2)
        = (FFNN.fit A { net with verbose := b2 } X Y).map
          (fun n => FFNN.predict A n X2)) := by
  have h1 := fit_verbose A net X Y b1
  have h2 := fit_verbose A net X Y b2
  refine ⟨?_, ?_, ?_, ?_⟩
  · rw [h1, h2, Option.map_map]
    congr 1
  · rw [h1, h2, Option.map_map, Option.map_map]
    congr 1
  · rw [h1, h2, Option.map_map, Option.map_map]
    congr 1
  · intro X2
    rw [h1, h2, Option.map_map, Option.map_map]
    congr 1
    funext n
    simp only [Function.comp]
    rw [predict_verbose]
    exact (predict_verbose A n X2 b2).symm
